import Mathlib

/-!
Verification of the EncodeTalker daemon core (job queue/scheduler, stats parsing,
persistence) against its specification.

Modelling conventions for the shallow embedding of the Rust sources:
* Rust `f64` values are modelled as exact rationals (`ℚ`); the program only ever
  divides, multiplies and compares quantities whose exact values are what the
  specification talks about.
* `u64` counters are modelled as `Nat`, with `saturating_sub` as truncated `Nat`
  subtraction (which is exactly `u64::saturating_sub`).
* `std::time::Duration` is modelled as a rational number of seconds.
* `chrono::DateTime<Utc>` timestamps and `uuid::Uuid` identifiers are modelled as
  abstract `Nat` values; operations that read the clock take the current tick as
  an explicit argument.
-/

/-! ## types/status.rs and types/stats.rs -/

/-- Job status (`JobStatus` in encodetalker-common). -/
inductive JobStatus where
  | Queued
  | Running
  | Completed
  | Failed
  | Cancelled
deriving DecidableEq

/-- Live encoding statistics (`EncodingStats` in types/stats.rs). -/
structure EncodingStats where
  frame : Nat
  total_frames : Option Nat
  fps : ℚ
  bitrate : ℚ
  /-- encoded duration, in seconds -/
  time_encoded : ℚ
  /-- total video duration, in seconds -/
  total_duration : Option ℚ
  progress_percent : ℚ
  eta : Option ℚ
deriving DecidableEq

/-- `impl Default for EncodingStats`. -/
def EncodingStats.default : EncodingStats :=
  { frame := 0
    total_frames := none
    fps := 0
    bitrate := 0
    time_encoded := 0
    total_duration := none
    progress_percent := 0
    eta := none }

/-- `EncodingStats::calculate_progress`: progress from frames if the total frame
count is known (and positive), else from encoded time if the total duration is
known (and positive), else unchanged. -/
def EncodingStats.calculate_progress (s : EncodingStats) : EncodingStats :=
  match s.total_frames with
  | some total =>
    if 0 < total then
      { s with progress_percent := ((s.frame : ℚ) / (total : ℚ)) * 100 }
    else s
  | none =>
    match s.total_duration with
    | some total_dur =>
      if 0 < total_dur then
        { s with progress_percent := (s.time_encoded / total_dur) * 100 }
      else s
    | none => s

/-- `EncodingStats::calculate_eta`: remaining frames (saturating subtraction)
divided by the current fps, only when the total frame count is known and fps is
positive. -/
def EncodingStats.calculate_eta (s : EncodingStats) : EncodingStats :=
  match s.total_frames with
  | some total =>
    if 0 < s.fps then
      { s with eta := some (((total - s.frame : Nat) : ℚ) / s.fps) }
    else s
  | none => s

/-- `EncodingStats::update`: recompute progress, then ETA. -/
def EncodingStats.update (s : EncodingStats) : EncodingStats :=
  s.calculate_progress.calculate_eta

/-! ## types/job.rs -/

/-- Video encoder family (`EncoderType`). -/
inductive EncoderType where
  | SvtAv1
  | Aom
deriving DecidableEq

/-- Audio handling mode (`AudioMode`). -/
inductive AudioMode where
  | Opus (bitrate : Nat)
  | Copy
  | Custom (codec : String) (bitrate : Nat)
deriving DecidableEq

/-- Encoder parameters (`EncoderParams`). -/
structure EncoderParams where
  crf : Nat
  preset : Nat
  extra_params : List String
deriving DecidableEq

/-- Per-job encoding configuration (`EncodingConfig`). -/
structure EncodingConfig where
  encoder : EncoderType
  audio_mode : AudioMode
  audio_streams : Option (List Nat)
  subtitle_streams : Option (List Nat)
  encoder_params : EncoderParams
deriving DecidableEq

/-- A complete encoding job (`EncodingJob`). -/
structure EncodingJob where
  id : Nat
  input_path : String
  output_path : String
  config : EncodingConfig
  status : JobStatus
  stats : Option EncodingStats
  error_message : Option String
  created_at : Nat
  started_at : Option Nat
  finished_at : Option Nat
deriving DecidableEq

/-- `EncodingJob::mark_started` at clock tick `now`. -/
def EncodingJob.mark_started (j : EncodingJob) (now : Nat) : EncodingJob :=
  { j with status := JobStatus.Running
           started_at := some now
           stats := some EncodingStats.default }

/-- `EncodingJob::mark_completed` at clock tick `now`. -/
def EncodingJob.mark_completed (j : EncodingJob) (now : Nat) : EncodingJob :=
  { j with status := JobStatus.Completed
           finished_at := some now }

/-- `EncodingJob::mark_failed` at clock tick `now`. -/
def EncodingJob.mark_failed (j : EncodingJob) (now : Nat) (error : String) : EncodingJob :=
  { j with status := JobStatus.Failed
           error_message := some error
           finished_at := some now }

/-- `EncodingJob::mark_cancelled` at clock tick `now`. -/
def EncodingJob.mark_cancelled (j : EncodingJob) (now : Nat) : EncodingJob :=
  { j with status := JobStatus.Cancelled
           finished_at := some now }

/-- `impl Default for EncodingConfig`. -/
def EncodingConfig.default : EncodingConfig :=
  { encoder := EncoderType.SvtAv1
    audio_mode := AudioMode.Opus 128
    audio_streams := none
    subtitle_streams := none
    encoder_params := { crf := 30, preset := 6, extra_params := [] } }

/-- A concrete job, built the way `EncodingJob::new` does (with the fresh v4
UUID modelled as `n` and the creation clock read as 0). -/
def mkJob (n : Nat) : EncodingJob :=
  { id := n
    input_path := "input.mkv"
    output_path := "output.mkv"
    config := EncodingConfig.default
    status := JobStatus.Queued
    stats := none
    error_message := none
    created_at := 0
    started_at := none
    finished_at := none }

/-! ## String-scanning helpers

Models of the Rust standard-library string operations and of the (fixed, literal)
regular expressions used by encoder/parser.rs, over `List Char`. -/

/-- `str::split_once(sep)`: split at the first occurrence of `sep`. -/
def splitOnceList (sep : Char) : List Char → Option (List Char × List Char)
  | [] => none
  | c :: cs =>
    if c = sep then some ([], cs)
    else (splitOnceList sep cs).map (fun p => (c :: p.1, p.2))

/-- Value of a list of decimal digits (most significant first). -/
def natOfDigits (cs : List Char) : Nat :=
  cs.foldl (fun n c => n * 10 + (c.toNat - 48)) 0

/-- Model of `str::parse::<u64>()` on the strings this program feeds it: a
non-empty all-digit string parses to its value, anything else fails.  (The Rust
parser also accepts a leading sign and rejects on `u64` overflow; no input
reaching it here has either.) -/
def parseU64chars (cs : List Char) : Option Nat :=
  if cs ≠ [] ∧ cs.all Char.isDigit then some (natOfDigits cs) else none

/-- Model of `str::parse::<f64>()` restricted to the plain unsigned decimal
numerals this program feeds it, returning the exact rational value (`f64`
rounding is abstracted away). -/
def parseF64chars (cs : List Char) : Option ℚ :=
  match splitOnceList '.' cs with
  | none => (parseU64chars cs).map (fun n => (n : ℚ))
  | some (ip, fp) =>
    if ip = [] ∧ fp = [] then none
    else if ip.all Char.isDigit ∧ fp.all Char.isDigit then
      some ((natOfDigits ip : ℚ) + (natOfDigits fp : ℚ) / (10 : ℚ) ^ fp.length)
    else none

/-- Drop a literal pattern from the front of a character list. -/
def dropLit : List Char → List Char → Option (List Char)
  | [], cs => some cs
  | _ :: _, [] => none
  | p :: ps, c :: cs => if c = p then dropLit ps cs else none

/-- Remove the suffix `pat` once, if present. -/
def dropSuffixOnce (pat cs : List Char) : Option (List Char) :=
  if cs.reverse.take pat.length = pat.reverse then
    some (cs.take (cs.length - pat.length))
  else none

/-- Model of `str::trim_end_matches(pat)`: repeatedly remove the suffix. -/
def trimEndMatches (pat : List Char) (cs : List Char) : List Char :=
  if hp : pat = [] then cs
  else
    match h : dropSuffixOnce pat cs with
    | some rest => trimEndMatches pat rest
    | none => cs
termination_by cs.length
decreasing_by
  unfold dropSuffixOnce at h
  split at h
  · rename_i heq
    cases h
    have hle : pat.length ≤ cs.length := by
      have := congrArg List.length heq
      simp at this
      omega
    have hpos : 0 < pat.length := by
      cases pat with
      | nil => exact absurd rfl hp
      | cons a l => simp
    simp [List.length_take]
    omega
  · exact absurd h (by simp)

/-- The regex atom `\d{2}`: exactly two digits at the front. -/
def twoDigits : List Char → Option (List Char × List Char)
  | a :: b :: rest => if a.isDigit ∧ b.isDigit then some ([a, b], rest) else none
  | _ => none

/-- Expect a single literal character at the front. -/
def expectChar (c : Char) : List Char → Option (List Char)
  | [] => none
  | x :: xs => if x = c then some xs else none

/-- Regex search: try the anchored matcher at every start position (leftmost
match wins), exactly the search semantics of `Regex::captures`. -/
def regexFind (m : List Char → Option α) : List Char → Option α
  | [] => m []
  | c :: cs =>
    match m (c :: cs) with
    | some a => some a
    | none => regexFind m cs

/-- Anchored matcher for `frame=\s*(\d+)`: returns the captured digit string. -/
def frameCapAt (cs : List Char) : Option (List Char) := do
  let r1 ← dropLit "frame=".data cs
  let r2 := r1.dropWhile Char.isWhitespace
  let ds := r2.takeWhile Char.isDigit
  if ds = [] then none else some ds

/-- Anchored matcher for `fps=\s*([\d.]+)`: returns the captured string. -/
def fpsCapAt (cs : List Char) : Option (List Char) := do
  let r1 ← dropLit "fps=".data cs
  let r2 := r1.dropWhile Char.isWhitespace
  let ds := r2.takeWhile (fun c => c.isDigit ∨ c = '.')
  if ds = [] then none else some ds

/-- Anchored matcher for `bitrate=\s*([\d.]+)`: returns the captured string. -/
def bitrateCapAt (cs : List Char) : Option (List Char) := do
  let r1 ← dropLit "bitrate=".data cs
  let r2 := r1.dropWhile Char.isWhitespace
  let ds := r2.takeWhile (fun c => c.isDigit ∨ c = '.')
  if ds = [] then none else some ds

/-- Anchored matcher for `time=(\d{2}):(\d{2}):(\d{2})\.(\d{2})`: returns the
four captured digit pairs. -/
def timeCapAt (cs : List Char) : Option (List Char × List Char × List Char × List Char) := do
  let r0 ← dropLit "time=".data cs
  let (h, r1) ← twoDigits r0
  let r1b ← expectChar ':' r1
  let (m, r2) ← twoDigits r1b
  let r2b ← expectChar ':' r2
  let (s, r3) ← twoDigits r2b
  let r3b ← expectChar '.' r3
  let (c, _) ← twoDigits r3b
  pure (h, m, s, c)

/-! ## encoder/parser.rs -/

/-- Stateful per-job stats parser (`StatsParser`). -/
structure StatsParser where
  stats : EncodingStats
deriving DecidableEq

/-- `StatsParser::new(total_frames, total_duration)`. -/
def StatsParser.new (total_frames : Option Nat) (total_duration : Option ℚ) : StatsParser :=
  { stats := { EncodingStats.default with
                 total_frames := total_frames
                 total_duration := total_duration } }

/-- Turn four captured `\d{2}` pairs (hours, minutes, seconds, centiseconds)
into a duration in seconds, the way both `time` branches of parser.rs do
(`total_millis = (h*3600 + m*60 + s) * 1000 + centis * 10`). -/
def timeCapsToSecs (h m s c : List Char) : ℚ :=
  (((natOfDigits h * 3600 + natOfDigits m * 60 + natOfDigits s) * 1000
      + natOfDigits c * 10 : Nat) : ℚ) / 1000

/-- `StatsParser::parse_line`.  A line containing `=` is handled as a
`-progress` key=value record (split at the first `=`); progress and ETA are
recomputed only on a `progress=continue` or `progress=end` record.  A line with
no `=` falls through to the classic-format branch, which applies the four
regexes to the whole line and then recomputes progress and ETA. -/
def StatsParser.parse_line (p : StatsParser) (line : String) : StatsParser :=
  let s := p.stats
  match splitOnceList '=' line.data with
  | some (key, value) =>
    if key = "frame".data then
      match parseU64chars value with
      | some frame => { p with stats := { s with frame := frame } }
      | none => p
    else if key = "fps".data then
      match parseF64chars value with
      | some fps => { p with stats := { s with fps := fps } }
      | none => p
    else if key = "bitrate".data then
      match parseF64chars (trimEndMatches "kbits/s".data value) with
      | some bitrate => { p with stats := { s with bitrate := bitrate } }
      | none => p
    else if key = "out_time".data then
      match regexFind timeCapAt value with
      | some (h, m, sec, c) =>
        { p with stats := { s with time_encoded := timeCapsToSecs h m sec c } }
      | none => p
    else if key = "progress".data then
      if value = "continue".data ∨ value = "end".data then
        { p with stats := s.update }
      else p
    else p
  | none =>
    let s1 :=
      match regexFind frameCapAt line.data with
      | some cap =>
        match parseU64chars cap with
        | some frame => { s with frame := frame }
        | none => s
      | none => s
    let s2 :=
      match regexFind fpsCapAt line.data with
      | some cap =>
        match parseF64chars cap with
        | some fps => { s1 with fps := fps }
        | none => s1
      | none => s1
    let s3 :=
      match regexFind bitrateCapAt line.data with
      | some cap =>
        match parseF64chars cap with
        | some bitrate => { s2 with bitrate := bitrate }
        | none => s2
      | none => s2
    let s4 :=
      match regexFind timeCapAt line.data with
      | some (h, m, sec, c) => { s3 with time_encoded := timeCapsToSecs h m sec c }
      | none => s3
    { p with stats := s4.update }

/-! ## encoder/ffmpeg.rs -/

/-- `parse_frame_rate`: a rational string of the form N/D is evaluated as the
floating-point quotient (rejecting a non-positive or unparseable denominator);
otherwise the whole string is parsed as a number. -/
def parse_frame_rate (rate : String) : Option ℚ :=
  match splitOnceList '/' rate.data with
  | some (num, den) => do
    let n ← parseF64chars num
    let d ← parseF64chars den
    if 0 < d then some (n / d) else none
  | none => parseF64chars rate.data

/-! ## queue/persist.rs -/

/-- The persisted snapshot (`PersistedState`). -/
structure PersistedState where
  queue : List EncodingJob
  active : List EncodingJob
  history : List EncodingJob
deriving DecidableEq

/-- `impl Default for PersistedState`: all three partitions empty. -/
def PersistedState.default : PersistedState :=
  { queue := [], active := [], history := [] }

/-- The state file as `Persistence::load` observes it: either absent, or present
with content that either deserializes to a snapshot or does not.  (serde_json
itself is an external library; the file is abstracted to its decoded value.) -/
inductive StateFile where
  | missing
  | content (doc : Option PersistedState)
deriving DecidableEq

/-- `Persistence::load`: a missing file yields the empty default snapshot as a
success; a present file whose content fails to deserialize yields an error; a
well-formed file yields its snapshot. -/
def Persistence.load : StateFile → Except String PersistedState
  | StateFile.missing => Except.ok PersistedState.default
  | StateFile.content none => Except.error "Echec du parsing de l etat"
  | StateFile.content (some st) => Except.ok st

/-- `Persistence::save`: serialize the snapshot and atomically replace the
state file; after a successful save the file exists and deserializes back to
the snapshot (serde_json round-trip, external to this repository). -/
def Persistence.save (st : PersistedState) : StateFile :=
  StateFile.content (some st)

/-! ## queue/manager.rs -/

/-- The queue manager state (`QueueManager`).  The `HashMap<Uuid, EncodingJob>`
of active jobs is modelled as a list of jobs with pairwise-distinct ids, and the
`active_controls` map by the list of ids that own an `ActiveJobControl`. -/
structure QueueManager where
  queue : List EncodingJob
  active : List EncodingJob
  activeControls : List Nat
  history : List EncodingJob
  maxConcurrent : Nat
  acceptingJobs : Bool
deriving DecidableEq

/-- `QueueManager::new(max_concurrent, ..)`: empty partitions, accepting jobs. -/
def QueueManager.new (max_concurrent : Nat) : QueueManager :=
  { queue := []
    active := []
    activeControls := []
    history := []
    maxConcurrent := max_concurrent
    acceptingJobs := true }

/-- Ids of a job list. -/
def jobIds (l : List EncodingJob) : List Nat := l.map (fun j => j.id)

/-- All ids across the three partitions. -/
def QueueManager.allIds (s : QueueManager) : List Nat :=
  jobIds s.queue ++ jobIds s.active ++ jobIds s.history

/-- Remove the first element satisfying `p`, returning it and the remainder:
the `iter().position(p)` + `remove(pos)` idiom of cancel_job and retry_job. -/
def extractFirst (p : EncodingJob → Bool) : List EncodingJob → Option (EncodingJob × List EncodingJob)
  | [] => none
  | j :: rest =>
    if p j then some (j, rest)
    else (extractFirst p rest).map (fun x => (x.1, j :: x.2))

/-- `QueueManager::load_state`: install the loaded queue and history; every job
from the loaded active partition is demoted to Queued with its stats cleared and
pushed onto the back of the queue.  (started_at and finished_at are not
touched.) -/
def QueueManager.load_state (s : QueueManager) (st : PersistedState) : QueueManager :=
  { s with
      queue := st.queue ++ st.active.map (fun j =>
        { j with status := JobStatus.Queued, stats := none })
      history := st.history }

/-- `QueueManager::save_state`: snapshot the three partitions. -/
def QueueManager.save_state (s : QueueManager) : PersistedState :=
  { queue := s.queue, active := s.active, history := s.history }

/-- `QueueManager::add_job`: fails while not accepting jobs; otherwise forces
the status to Queued and appends the job to the tail of the queue. -/
def QueueManager.add_job (s : QueueManager) (job : EncodingJob) : Except String QueueManager :=
  if s.acceptingJobs then
    Except.ok { s with queue := s.queue ++ [{ job with status := JobStatus.Queued }] }
  else
    Except.error "Le daemon n accepte plus de nouveaux jobs"

/-- `QueueManager::cancel_job` at clock tick `now`.  An active job with a
control gets the advisory cancel signal and the call returns Ok with the state
unchanged; otherwise the first queued job with this id is removed, marked
Cancelled and appended to history; otherwise the call fails. -/
def QueueManager.cancel_job (s : QueueManager) (now : Nat) (job_id : Nat) :
    Except String QueueManager :=
  if (s.active.any (fun j => j.id = job_id)) ∧ job_id ∈ s.activeControls then
    Except.ok s
  else
    match extractFirst (fun j => j.id = job_id) s.queue with
    | some (job, rest) =>
      Except.ok { s with
                    queue := rest
                    history := s.history ++ [job.mark_cancelled now] }
    | none => Except.error "Job non trouve"

/-- `QueueManager::retry_job`: the first history entry with this id and status
Failed has its error/stats/timestamps cleared, is reset to Queued and appended
to the tail of the queue; otherwise the call fails. -/
def QueueManager.retry_job (s : QueueManager) (job_id : Nat) : Except String QueueManager :=
  match extractFirst (fun j => j.id = job_id && j.status = JobStatus.Failed) s.history with
  | some (job, rest) =>
    Except.ok { s with
                  history := rest
                  queue := s.queue ++ [{ job with
                    status := JobStatus.Queued
                    error_message := none
                    stats := none
                    started_at := none
                    finished_at := none }] }
  | none => Except.error "Job non trouve ou non failed"

/-- `QueueManager::clear_history`. -/
def QueueManager.clear_history (s : QueueManager) : QueueManager :=
  { s with history := [] }

/-- Modelled from the spec: `QueueManager::remove_from_history` is called from
ipc/server.rs but its definition is not among the provided sources; per
section 4.1 it mutates history only, removing the entry with the given id. -/
def QueueManager.remove_from_history (s : QueueManager) (job_id : Nat) :
    Except String QueueManager :=
  match extractFirst (fun j => j.id = job_id) s.history with
  | some (_, rest) => Except.ok { s with history := rest }
  | none => Except.error "Job non trouve"

/-- `QueueManager::stop_accepting_jobs`. -/
def QueueManager.stop_accepting_jobs (s : QueueManager) : QueueManager :=
  { s with acceptingJobs := false }

/-- `QueueManager::start_job` (dispatch of one job, state part) at clock tick
`now`: mark the job started and insert it into the active map, registering its
cancellation control. -/
def QueueManager.start_job (s : QueueManager) (now : Nat) (job : EncodingJob) : QueueManager :=
  let j := job.mark_started now
  { s with
      active := j :: s.active
      activeControls := j.id :: s.activeControls }

/-- The tail of the spawned task in `QueueManager::start_job`, run when the
pipeline finishes: drop the control, remove the job from the active map, give
it its terminal status (`mark_completed` on Ok, `mark_failed` on Err) and
append it to history.  `result = none` models `Ok(())`, `result = some e`
models `Err(e)`.  (The job is always present: the code unwraps.) -/
def QueueManager.finish_job (s : QueueManager) (now : Nat) (job_id : Nat)
    (result : Option String) : QueueManager :=
  match extractFirst (fun j => j.id = job_id) s.active with
  | some (job, rest) =>
    let j := match result with
      | none => job.mark_completed now
      | some e => job.mark_failed now e
    { s with
        active := rest
        activeControls := s.activeControls.filter (fun i => i ≠ job_id)
        history := s.history ++ [j] }
  | none => s

/-- The stats-propagation task inside `QueueManager::start_job`: set the stats
of the active job with this id. -/
def QueueManager.update_stats (s : QueueManager) (job_id : Nat) (st : EncodingStats) :
    QueueManager :=
  { s with active := s.active.map (fun j =>
      if j.id = job_id then { j with stats := some st } else j) }

/-! ## The job store as a labelled transition system

Every mutation in manager.rs is a short critical section under the collection
locks (spec section 5); the concurrent callers, the single admission loop and
the per-job completion tasks interleave as a sequence of these atomic steps.
`now` arguments are arbitrary clock reads. -/

/-- Labels naming the operations of the job store. -/
inductive Label where
  | add (id : Nat)
  | cancel (id : Nat)
  | retry (id : Nat)
  | dispatch (id : Nat)
  | finish (id : Nat)
  | progress (id : Nat)
  | removeHistory (id : Nat)
  | clearHistory
  | stopAccepting
deriving DecidableEq

/-- One atomic operation on the job store.  The `add` case carries the facts
established by the only caller (ipc/server.rs): jobs enter through
`EncodingJob::new`, which sets stats, error message and both timestamps to
`None`, under a fresh v4 UUID.  The `dispatch` case is one iteration of the
admission loop `run_job_starter`: it fires only when the active count is below
`max_concurrent` and pops the queue head.  The `finish` case is the tail of the
task spawned by `start_job`, which only runs for a job in the active map. -/
inductive Step : QueueManager → Label → QueueManager → Prop where
  | add (s s' : QueueManager) (j : EncodingJob)
      (hstats : j.stats = none) (herr : j.error_message = none)
      (hstart : j.started_at = none) (hfin : j.finished_at = none)
      (hfresh : j.id ∉ s.allIds)
      (h : s.add_job j = Except.ok s') :
      Step s (Label.add j.id) s'
  | cancel (s s' : QueueManager) (now id : Nat)
      (h : s.cancel_job now id = Except.ok s') :
      Step s (Label.cancel id) s'
  | retry (s s' : QueueManager) (id : Nat)
      (h : s.retry_job id = Except.ok s') :
      Step s (Label.retry id) s'
  | dispatch (s : QueueManager) (now : Nat) (j : EncodingJob) (rest : List EncodingJob)
      (hcap : s.active.length < s.maxConcurrent)
      (hq : s.queue = j :: rest) :
      Step s (Label.dispatch j.id) (QueueManager.start_job { s with queue := rest } now j)
  | finish (s : QueueManager) (now id : Nat) (result : Option String)
      (h : id ∈ jobIds s.active) :
      Step s (Label.finish id) (s.finish_job now id result)
  | progress (s : QueueManager) (id : Nat) (st : EncodingStats) :
      Step s (Label.progress id) (s.update_stats id st)
  | removeHistory (s s' : QueueManager) (id : Nat)
      (h : s.remove_from_history id = Except.ok s') :
      Step s (Label.removeHistory id) s'
  | clearHistory (s : QueueManager) :
      Step s Label.clearHistory s.clear_history
  | stopAccepting (s : QueueManager) :
      Step s Label.stopAccepting s.stop_accepting_jobs

/-- A finite run of the job store, recorded as the list of labels fired. -/
inductive Trace : QueueManager → List Label → QueueManager → Prop where
  | nil (s : QueueManager) : Trace s [] s
  | snoc (s0 : QueueManager) (ls : List Label) (s1 s2 : QueueManager) (l : Label)
      (htr : Trace s0 ls s1) (hst : Step s1 l s2) : Trace s0 (ls ++ [l]) s2

/-- Reachability from a freshly constructed manager with the given limit. -/
def Reachable (max : Nat) (s : QueueManager) : Prop :=
  ∃ ls, Trace (QueueManager.new max) ls s

/-- Number of occurrences of a job id across the three partitions. -/
def QueueManager.countId (s : QueueManager) (x : Nat) : Nat :=
  s.allIds.count x

/-- The labels that take a job id out of the store. -/
def removesId (id : Nat) : Label → Bool
  | Label.removeHistory i => i = id
  | Label.clearHistory => true
  | _ => false

/-- The id was admitted by some AddJob and no later label removes it. -/
def admittedNotRemoved (id : Nat) (ls : List Label) : Prop :=
  ∃ l1 l2, ls = l1 ++ Label.add id :: l2 ∧ ∀ l ∈ l2, removesId id l = false

/-- The inductive invariant of the job store. -/
def StoreInv (s : QueueManager) : Prop :=
  s.allIds.Nodup
  ∧ s.activeControls = jobIds s.active
  ∧ s.active.length ≤ s.maxConcurrent
  ∧ (∀ j ∈ s.queue, j.status = JobStatus.Queued ∧ j.error_message = none)
  ∧ (∀ j ∈ s.active, j.status = JobStatus.Running ∧ j.stats ≠ none ∧ j.error_message = none)
  ∧ (∀ j ∈ s.history,
       (j.error_message ≠ none ↔ j.status = JobStatus.Failed)
       ∧ j.status ≠ JobStatus.Queued ∧ j.status ≠ JobStatus.Running)

/-! ## Concrete runs used by the analyses -/

/-- The store after AddJob of job 0 on a fresh manager with limit 2. -/
def stateAfterAdd : QueueManager :=
  { QueueManager.new 2 with queue := [{ mkJob 0 with status := JobStatus.Queued }] }

/-- A fresh manager with limit 1 after AddJob of job 0. -/
def c3S1 : QueueManager :=
  { QueueManager.new 1 with queue := [{ mkJob 0 with status := JobStatus.Queued }] }

/-- ... after the admission loop dispatches job 0 at tick 10. -/
def c3S2 : QueueManager :=
  QueueManager.start_job { c3S1 with queue := [] } 10
    { mkJob 0 with status := JobStatus.Queued }

/-- ... after job 0 completes successfully at tick 20. -/
def c3S3 : QueueManager :=
  c3S2.finish_job 20 0 none

/-- A snapshot whose active partition holds a running job with a start time. -/
def c4Job : EncodingJob :=
  { mkJob 7 with status := JobStatus.Running
                 stats := some EncodingStats.default
                 started_at := some 5 }

/-- The snapshot used against the persistence round-trip claim. -/
def c4State : PersistedState :=
  { queue := [], active := [c4Job], history := [] }

/-- A store with one active job (id 1) and one queued job (id 2). -/
def c5Store : QueueManager :=
  { queue := [{ mkJob 2 with status := JobStatus.Queued }]
    active := [(mkJob 1).mark_started 3]
    activeControls := [1]
    history := []
    maxConcurrent := 2
    acceptingJobs := true }

/-- A store whose history holds one Failed job (id 4). -/
def c6Store : QueueManager :=
  { queue := []
    active := []
    activeControls := []
    history := [(mkJob 4).mark_failed 8 "boom"]
    maxConcurrent := 2
    acceptingJobs := true }
/-! ## Helper lemmas about the list operations -/

theorem extractFirst_split {p : EncodingJob → Bool} {l : List EncodingJob}
    {j : EncodingJob} {rest : List EncodingJob}
    (h : extractFirst p l = some (j, rest)) :
    ∃ l1 l2, l = l1 ++ j :: l2 ∧ rest = l1 ++ l2
      ∧ (∀ x ∈ l1, p x = false) ∧ p j = true := by
  induction l generalizing j rest with
  | nil => simp [extractFirst] at h
  | cons a l ih =>
    unfold extractFirst at h
    by_cases hp : p a
    · simp [hp] at h
      exact ⟨[], l, by simp [h.1], by simp [h.2], by simp, by simp [← h.1, hp]⟩
    · simp [hp] at h
      cases hext : extractFirst p l with
      | none => rw [hext] at h; simp at h
      | some x =>
        obtain ⟨y, r⟩ := x
        rw [hext] at h
        simp at h
        obtain ⟨a1, b, ⟨hya, hrb⟩, haj, hbrest⟩ := h
        subst haj
        subst hya
        subst hrb
        subst hbrest
        obtain ⟨l1, l2, he1, he2, he3, he4⟩ := ih hext
        refine ⟨a :: l1, l2, by simp [he1], by simp [he2], ?_, he4⟩
        intro z hz
        rcases List.mem_cons.mp hz with hz | hz
        · subst hz; simpa using hp
        · exact he3 z hz

theorem extractFirst_none {p : EncodingJob → Bool} {l : List EncodingJob}
    (h : extractFirst p l = none) : ∀ x ∈ l, p x = false := by
  induction l with
  | nil => simp
  | cons a l ih =>
    unfold extractFirst at h
    by_cases hp : p a
    · simp [hp] at h
    · simp [hp] at h
      intro x hx
      rcases List.mem_cons.mp hx with hx | hx
      · subst hx; simpa using hp
      · cases hext : extractFirst p l with
        | none => exact ih hext x hx
        | some y => rw [hext] at h; simp at h

/-- `extractFirst` succeeds exactly when some element satisfies the test. -/
theorem extractFirst_isSome_iff {p : EncodingJob → Bool} {l : List EncodingJob} :
    (extractFirst p l).isSome ↔ ∃ x ∈ l, p x = true := by
  constructor
  · intro h
    cases hext : extractFirst p l with
    | none => rw [hext] at h; simp at h
    | some x =>
      obtain ⟨j, rest⟩ := x
      obtain ⟨l1, l2, he1, _, _, he4⟩ := extractFirst_split hext
      exact ⟨j, by simp [he1], he4⟩
  · intro h
    cases hext : extractFirst p l with
    | none =>
      obtain ⟨x, hx, hpx⟩ := h
      have := extractFirst_none hext x hx
      simp [hpx] at this
    | some x => simp

/-- Ids are preserved by every status-marking operation. -/
theorem jobIds_map_of_id_eq {f : EncodingJob → EncodingJob} (l : List EncodingJob)
    (hf : ∀ j, (f j).id = j.id) : jobIds (l.map f) = jobIds l := by
  unfold jobIds
  rw [List.map_map]
  refine List.map_congr_left ?_
  intro a _
  simp [Function.comp, hf]

/-! ## Per-operation effects on the id count -/

theorem countId_add {s s' : QueueManager} {j : EncodingJob}
    (h : s.add_job j = Except.ok s') (x : Nat) :
    s'.countId x = s.countId x + (if j.id = x then 1 else 0) := by
  unfold QueueManager.add_job at h
  split at h
  · cases h
    simp [QueueManager.countId, QueueManager.allIds, jobIds, List.count_append,
      List.count_cons]
    split <;> omega
  · cases h

theorem countId_cancel {s s' : QueueManager} {now id : Nat}
    (h : s.cancel_job now id = Except.ok s') (x : Nat) :
    s'.countId x = s.countId x := by
  unfold QueueManager.cancel_job at h
  split at h
  · cases h; rfl
  · cases hext : extractFirst (fun j => j.id = id) s.queue with
    | none => rw [hext] at h; cases h
    | some pr =>
      obtain ⟨job, rest⟩ := pr
      rw [hext] at h
      cases h
      obtain ⟨l1, l2, he1, he2, _, _⟩ := extractFirst_split hext
      subst he2
      simp [QueueManager.countId, QueueManager.allIds, jobIds, he1,
        List.count_append, List.count_cons, EncodingJob.mark_cancelled]
      omega

theorem countId_retry {s s' : QueueManager} {id : Nat}
    (h : s.retry_job id = Except.ok s') (x : Nat) :
    s'.countId x = s.countId x := by
  unfold QueueManager.retry_job at h
  cases hext : extractFirst (fun j => j.id = id && j.status = JobStatus.Failed) s.history with
  | none => rw [hext] at h; cases h
  | some pr =>
    obtain ⟨job, rest⟩ := pr
    rw [hext] at h
    cases h
    obtain ⟨l1, l2, he1, he2, _, _⟩ := extractFirst_split hext
    subst he2
    simp [QueueManager.countId, QueueManager.allIds, jobIds, he1,
      List.count_append, List.count_cons]
    omega

theorem countId_dispatch (s : QueueManager) (now : Nat) (j : EncodingJob)
    (rest : List EncodingJob) (hq : s.queue = j :: rest) (x : Nat) :
    (QueueManager.start_job { s with queue := rest } now j).countId x = s.countId x := by
  simp [QueueManager.countId, QueueManager.allIds, jobIds, hq,
    QueueManager.start_job, EncodingJob.mark_started, List.count_append, List.count_cons]
  omega

theorem countId_finish (s : QueueManager) (now id : Nat) (result : Option String) (x : Nat) :
    (s.finish_job now id result).countId x = s.countId x := by
  unfold QueueManager.finish_job
  cases hext : extractFirst (fun j => j.id = id) s.active with
  | none => rfl
  | some pr =>
    obtain ⟨job, rest⟩ := pr
    obtain ⟨l1, l2, he1, he2, _, _⟩ := extractFirst_split hext
    subst he2
    cases result with
    | none =>
      simp [QueueManager.countId, QueueManager.allIds, jobIds, he1,
        List.count_append, List.count_cons, EncodingJob.mark_completed]
      omega
    | some e =>
      simp [QueueManager.countId, QueueManager.allIds, jobIds, he1,
        List.count_append, List.count_cons, EncodingJob.mark_failed]
      omega

theorem countId_progress (s : QueueManager) (id : Nat) (st : EncodingStats) (x : Nat) :
    (s.update_stats id st).countId x = s.countId x := by
  unfold QueueManager.update_stats QueueManager.countId QueueManager.allIds
  rw [jobIds_map_of_id_eq]
  intro j
  split <;> rfl

theorem countId_removeHistory {s s' : QueueManager} {id : Nat}
    (h : s.remove_from_history id = Except.ok s') (x : Nat) (hx : x ≠ id) :
    s'.countId x = s.countId x := by
  unfold QueueManager.remove_from_history at h
  cases hext : extractFirst (fun j => j.id = id) s.history with
  | none => rw [hext] at h; cases h
  | some pr =>
    obtain ⟨job, rest⟩ := pr
    rw [hext] at h
    cases h
    obtain ⟨l1, l2, he1, he2, _, hpj⟩ := extractFirst_split hext
    subst he2
    have hjid : job.id = id := by simpa using hpj
    simp [QueueManager.countId, QueueManager.allIds, jobIds, he1,
      List.count_append, List.count_cons, hjid]
    have : ¬(id = x) := fun hc => hx hc.symm
    simp [this]

theorem countId_removeHistory_le {s s' : QueueManager} {id : Nat}
    (h : s.remove_from_history id = Except.ok s') (x : Nat) :
    s'.countId x ≤ s.countId x := by
  unfold QueueManager.remove_from_history at h
  cases hext : extractFirst (fun j => j.id = id) s.history with
  | none => rw [hext] at h; cases h
  | some pr =>
    obtain ⟨job, rest⟩ := pr
    rw [hext] at h
    cases h
    obtain ⟨l1, l2, he1, he2, _, _⟩ := extractFirst_split hext
    subst he2
    simp [QueueManager.countId, QueueManager.allIds, jobIds, he1,
      List.count_append, List.count_cons]

theorem countId_clearHistory (s : QueueManager) (x : Nat) :
    s.clear_history.countId x ≤ s.countId x := by
  simp [QueueManager.clear_history, QueueManager.countId, QueueManager.allIds, jobIds,
    List.count_append]

/-! ## Preservation of the store invariant -/

theorem storeInv_new (max : Nat) : StoreInv (QueueManager.new max) := by
  refine ⟨?_, ?_, ?_, ?_, ?_, ?_⟩ <;>
    simp [QueueManager.new, QueueManager.allIds, jobIds, StoreInv]

theorem storeInv_add {s s' : QueueManager} {j : EncodingJob}
    (hinv : StoreInv s) (herr : j.error_message = none)
    (hfresh : j.id ∉ s.allIds) (h : s.add_job j = Except.ok s') : StoreInv s' := by
  obtain ⟨hnd, hctrl, hlen, hq, ha, hh⟩ := hinv
  have hcnt := countId_add h
  unfold QueueManager.add_job at h
  split at h
  · cases h
    refine ⟨?_, hctrl, hlen, ?_, ha, hh⟩
    · rw [List.nodup_iff_count_le_one] at hnd ⊢
      intro x
      have h1 := hcnt x
      have h2 := hnd x
      have h0 : s.allIds.count j.id = 0 := List.count_eq_zero.mpr hfresh
      unfold QueueManager.countId at h1
      rw [h1]
      by_cases hx : j.id = x
      · subst hx
        rw [if_pos rfl]
        omega
      · rw [if_neg hx]
        omega
    · intro q hq2
      rcases List.mem_append.mp hq2 with hmem | hmem
      · exact hq q hmem
      · simp at hmem
        subst hmem
        exact ⟨rfl, herr⟩
  · cases h

theorem storeInv_cancel {s s' : QueueManager} {now id : Nat}
    (hinv : StoreInv s) (h : s.cancel_job now id = Except.ok s') : StoreInv s' := by
  obtain ⟨hnd, hctrl, hlen, hq, ha, hh⟩ := hinv
  have hcnt := countId_cancel h
  unfold QueueManager.cancel_job at h
  split at h
  · cases h
    exact ⟨hnd, hctrl, hlen, hq, ha, hh⟩
  · cases hext : extractFirst (fun j => j.id = id) s.queue with
    | none => rw [hext] at h; cases h
    | some pr =>
      obtain ⟨job, rest⟩ := pr
      rw [hext] at h
      cases h
      obtain ⟨l1, l2, he1, he2, _, _⟩ := extractFirst_split hext
      subst he2
      refine ⟨?_, hctrl, hlen, ?_, ha, ?_⟩
      · rw [List.nodup_iff_count_le_one] at hnd ⊢
        intro x
        have h1 := hcnt x
        unfold QueueManager.countId at h1
        rw [h1]
        exact hnd x
      · intro q hq2
        apply hq
        rw [he1]
        rcases List.mem_append.mp hq2 with hm | hm
        · exact List.mem_append.mpr (Or.inl hm)
        · exact List.mem_append.mpr (Or.inr (List.mem_cons_of_mem _ hm))
      · intro q hq2
        rcases List.mem_append.mp hq2 with hm | hm
        · exact hh q hm
        · simp at hm
          subst hm
          have hjq : job ∈ s.queue := by
            rw [he1]
            exact List.mem_append.mpr (Or.inr (List.mem_cons_self _ _))
          obtain ⟨hst, herr⟩ := hq job hjq
          refine ⟨?_, ?_, ?_⟩ <;> simp [EncodingJob.mark_cancelled, herr]

theorem storeInv_retry {s s' : QueueManager} {id : Nat}
    (hinv : StoreInv s) (h : s.retry_job id = Except.ok s') : StoreInv s' := by
  obtain ⟨hnd, hctrl, hlen, hq, ha, hh⟩ := hinv
  have hcnt := countId_retry h
  unfold QueueManager.retry_job at h
  cases hext : extractFirst (fun j => j.id = id && j.status = JobStatus.Failed) s.history with
  | none => rw [hext] at h; cases h
  | some pr =>
    obtain ⟨job, rest⟩ := pr
    rw [hext] at h
    cases h
    obtain ⟨l1, l2, he1, he2, _, _⟩ := extractFirst_split hext
    subst he2
    refine ⟨?_, hctrl, hlen, ?_, ha, ?_⟩
    · rw [List.nodup_iff_count_le_one] at hnd ⊢
      intro x
      have h1 := hcnt x
      unfold QueueManager.countId at h1
      rw [h1]
      exact hnd x
    · intro q hq2
      rcases List.mem_append.mp hq2 with hm | hm
      · exact hq q hm
      · simp at hm
        subst hm
        exact ⟨rfl, rfl⟩
    · intro q hq2
      apply hh
      rw [he1]
      rcases List.mem_append.mp hq2 with hm | hm
      · exact List.mem_append.mpr (Or.inl hm)
      · exact List.mem_append.mpr (Or.inr (List.mem_cons_of_mem _ hm))

theorem storeInv_dispatch {s : QueueManager} {now : Nat} {j : EncodingJob}
    {rest : List EncodingJob} (hinv : StoreInv s)
    (hcap : s.active.length < s.maxConcurrent) (hq : s.queue = j :: rest) :
    StoreInv (QueueManager.start_job { s with queue := rest } now j) := by
  obtain ⟨hnd, hctrl, hlen, hqp, ha, hh⟩ := hinv
  have hcnt := countId_dispatch s now j rest hq
  have hjmem : j ∈ s.queue := by rw [hq]; exact List.mem_cons_self _ _
  obtain ⟨hjst, hjerr⟩ := hqp j hjmem
  refine ⟨?_, ?_, ?_, ?_, ?_, ?_⟩
  · rw [List.nodup_iff_count_le_one] at hnd ⊢
    intro x
    have h1 := hcnt x
    unfold QueueManager.countId at h1
    rw [h1]
    exact hnd x
  · simp [QueueManager.start_job, EncodingJob.mark_started, jobIds]
    exact congrArg (List.map _) rfl ▸ hctrl
  · simp [QueueManager.start_job]
    omega
  · intro q hq2
    simp [QueueManager.start_job] at hq2
    apply hqp
    rw [hq]
    exact List.mem_cons_of_mem _ hq2
  · intro q hq2
    simp [QueueManager.start_job] at hq2
    rcases hq2 with hm | hm
    · subst hm
      refine ⟨rfl, by simp [EncodingJob.mark_started], ?_⟩
      simp [EncodingJob.mark_started, hjerr]
    · exact ha q hm
  · intro q hq2
    simp [QueueManager.start_job] at hq2
    exact hh q hq2

theorem storeInv_finish_aux {s : QueueManager} {job jfin : EncodingJob}
    {l1 l2 : List EncodingJob} {id : Nat}
    (hinv : StoreInv s)
    (he1 : s.active = l1 ++ job :: l2)
    (he3 : ∀ x ∈ l1, x.id ≠ id)
    (hl2 : ∀ x ∈ l2, x.id ≠ id)
    (hjid : job.id = id)
    (hfid : jfin.id = job.id)
    (hfst1 : jfin.status ≠ JobStatus.Queued) (hfst2 : jfin.status ≠ JobStatus.Running)
    (hfiff : jfin.error_message ≠ none ↔ jfin.status = JobStatus.Failed) :
    StoreInv { s with
        active := l1 ++ l2
        activeControls := s.activeControls.filter (fun i => i ≠ id)
        history := s.history ++ [jfin] } := by
  obtain ⟨hnd, hctrl, hlen, hq, ha, hh⟩ := hinv
  refine ⟨?_, ?_, ?_, ?_, ?_, ?_⟩
  · rw [List.nodup_iff_count_le_one] at hnd ⊢
    intro x
    have h2 := hnd x
    unfold QueueManager.allIds at h2 ⊢
    rw [he1] at h2
    simp [jobIds, List.count_append, List.count_cons, hfid, hjid] at h2 ⊢
    omega
  · show s.activeControls.filter (fun i => i ≠ id) = jobIds (l1 ++ l2)
    rw [hctrl, he1]
    have hf1 : (List.map (fun j => j.id) l1).filter (fun i => decide (i ≠ id))
        = List.map (fun j => j.id) l1 := by
      apply List.filter_eq_self.mpr
      intro a ha2
      obtain ⟨x, hx, hxa⟩ := List.mem_map.mp ha2
      subst hxa
      simpa using he3 x hx
    have hf2 : (List.map (fun j => j.id) l2).filter (fun i => decide (i ≠ id))
        = List.map (fun j => j.id) l2 := by
      apply List.filter_eq_self.mpr
      intro a ha2
      obtain ⟨x, hx, hxa⟩ := List.mem_map.mp ha2
      subst hxa
      simpa using hl2 x hx
    simp only [jobIds, List.map_append, List.map_cons, List.filter_append, List.filter_cons]
    rw [hf1, hf2]
    simp [hjid]
  · show (l1 ++ l2).length ≤ s.maxConcurrent
    rw [he1] at hlen
    simp at hlen ⊢
    omega
  · intro q hq2
    exact hq q hq2
  · intro q hq2
    apply ha
    rw [he1]
    rcases List.mem_append.mp hq2 with hm | hm
    · exact List.mem_append.mpr (Or.inl hm)
    · exact List.mem_append.mpr (Or.inr (List.mem_cons_of_mem _ hm))
  · intro q hq2
    rcases List.mem_append.mp hq2 with hm | hm
    · exact hh q hm
    · simp at hm
      subst hm
      exact ⟨hfiff, hfst1, hfst2⟩

theorem storeInv_finish {s : QueueManager} {now id : Nat} {result : Option String}
    (hinv : StoreInv s) (hmem : id ∈ jobIds s.active) :
    StoreInv (s.finish_job now id result) := by
  obtain ⟨hnd, hctrl, hlen, hq, ha, hh⟩ := hinv
  cases hext : extractFirst (fun j => j.id = id) s.active with
  | none =>
    exfalso
    obtain ⟨x, hx, hxid⟩ := List.mem_map.mp hmem
    have := extractFirst_none hext x hx
    simp [hxid] at this
  | some pr =>
    obtain ⟨job, rest⟩ := pr
    obtain ⟨l1, l2, he1, he2, he3, hpj⟩ := extractFirst_split hext
    subst he2
    have hjid : job.id = id := by simpa using hpj
    have he3n : ∀ x ∈ l1, x.id ≠ id := by
      intro x hx
      simpa using he3 x hx
    have hjmem : job ∈ s.active := by
      rw [he1]
      exact List.mem_append.mpr (Or.inr (List.mem_cons_self _ _))
    have hjerr : job.error_message = none := (ha job hjmem).2.2
    have hl2 : ∀ x ∈ l2, x.id ≠ id := by
      intro x hx hxid
      rw [List.nodup_iff_count_le_one] at hnd
      have hcle := hnd id
      unfold QueueManager.allIds at hcle
      rw [he1] at hcle
      have hxmem : id ∈ jobIds l2 := by
        rw [← hxid]
        exact List.mem_map_of_mem _ hx
      have hpos : (jobIds l2).count id ≠ 0 := by
        rw [Ne, List.count_eq_zero]
        intro hnot
        exact hnot hxmem
      simp [jobIds, List.count_append, List.count_cons, hjid] at hcle hpos
      omega
    unfold QueueManager.finish_job
    rw [hext]
    cases result with
    | none =>
      exact storeInv_finish_aux ⟨hnd, hctrl, hlen, hq, ha, hh⟩ he1 he3n hl2 hjid
        (by simp [EncodingJob.mark_completed]) (by simp [EncodingJob.mark_completed])
        (by simp [EncodingJob.mark_completed]) (by simp [EncodingJob.mark_completed, hjerr])
    | some e =>
      exact storeInv_finish_aux ⟨hnd, hctrl, hlen, hq, ha, hh⟩ he1 he3n hl2 hjid
        (by simp [EncodingJob.mark_failed]) (by simp [EncodingJob.mark_failed])
        (by simp [EncodingJob.mark_failed]) (by simp [EncodingJob.mark_failed])

theorem storeInv_progress {s : QueueManager} {id : Nat} {st : EncodingStats}
    (hinv : StoreInv s) : StoreInv (s.update_stats id st) := by
  obtain ⟨hnd, hctrl, hlen, hq, ha, hh⟩ := hinv
  have hids : jobIds (s.active.map (fun j =>
      if j.id = id then { j with stats := some st } else j)) = jobIds s.active := by
    apply jobIds_map_of_id_eq
    intro j
    split <;> rfl
  refine ⟨?_, ?_, ?_, hq, ?_, hh⟩
  · show (QueueManager.allIds _).Nodup
    unfold QueueManager.allIds QueueManager.update_stats
    simp only
    rw [hids]
    exact hnd
  · show s.activeControls = _
    rw [hctrl]
    exact hids.symm
  · show (s.active.map _).length ≤ s.maxConcurrent
    rw [List.length_map]
    exact hlen
  · intro q hq2
    simp only [QueueManager.update_stats] at hq2
    obtain ⟨x, hx, hxq⟩ := List.mem_map.mp hq2
    obtain ⟨hst, hstats, herr⟩ := ha x hx
    subst hxq
    split
    · exact ⟨hst, by simp, herr⟩
    · exact ⟨hst, hstats, herr⟩

theorem storeInv_removeHistory {s s' : QueueManager} {id : Nat}
    (hinv : StoreInv s) (h : s.remove_from_history id = Except.ok s') : StoreInv s' := by
  obtain ⟨hnd, hctrl, hlen, hq, ha, hh⟩ := hinv
  have hcnt := countId_removeHistory_le h
  unfold QueueManager.remove_from_history at h
  cases hext : extractFirst (fun j => j.id = id) s.history with
  | none => rw [hext] at h; cases h
  | some pr =>
    obtain ⟨job, rest⟩ := pr
    rw [hext] at h
    cases h
    obtain ⟨l1, l2, he1, he2, _, _⟩ := extractFirst_split hext
    subst he2
    refine ⟨?_, hctrl, hlen, hq, ha, ?_⟩
    · rw [List.nodup_iff_count_le_one] at hnd ⊢
      intro x
      have h1 := hcnt x
      unfold QueueManager.countId at h1
      exact le_trans h1 (hnd x)
    · intro q hq2
      apply hh
      rw [he1]
      rcases List.mem_append.mp hq2 with hm | hm
      · exact List.mem_append.mpr (Or.inl hm)
      · exact List.mem_append.mpr (Or.inr (List.mem_cons_of_mem _ hm))

theorem storeInv_clearHistory {s : QueueManager} (hinv : StoreInv s) :
    StoreInv s.clear_history := by
  obtain ⟨hnd, hctrl, hlen, hq, ha, hh⟩ := hinv
  refine ⟨?_, hctrl, hlen, hq, ha, by simp [QueueManager.clear_history]⟩
  show (QueueManager.allIds _).Nodup
  unfold QueueManager.allIds QueueManager.clear_history
  unfold QueueManager.allIds jobIds at hnd
  simp only [jobIds, List.map_nil, List.append_nil]
  have hsub : List.Sublist
      (List.map (fun j => j.id) s.queue ++ List.map (fun j => j.id) s.active)
      (List.map (fun j => j.id) s.queue ++ List.map (fun j => j.id) s.active
        ++ List.map (fun j => j.id) s.history) :=
    List.sublist_append_left _ _
  exact List.Nodup.sublist hsub hnd

theorem storeInv_stopAccepting {s : QueueManager} (hinv : StoreInv s) :
    StoreInv s.stop_accepting_jobs := by
  obtain ⟨hnd, hctrl, hlen, hq, ha, hh⟩ := hinv
  exact ⟨hnd, hctrl, hlen, hq, ha, hh⟩

/-- The store invariant is preserved by every step. -/
theorem storeInv_step {s s' : QueueManager} {l : Label}
    (hinv : StoreInv s) (hst : Step s l s') : StoreInv s' := by
  cases hst with
  | add _ j hstats herr hstart hfin hfresh h => exact storeInv_add hinv herr hfresh h
  | cancel _ now id h => exact storeInv_cancel hinv h
  | retry _ id h => exact storeInv_retry hinv h
  | dispatch now j rest hcap hq2 => exact storeInv_dispatch hinv hcap hq2
  | finish now id result h => exact storeInv_finish hinv h
  | progress id st => exact storeInv_progress hinv
  | removeHistory _ id h => exact storeInv_removeHistory hinv h
  | clearHistory => exact storeInv_clearHistory hinv
  | stopAccepting => exact storeInv_stopAccepting hinv

/-- Every step leaves the configured concurrency limit unchanged. -/
theorem step_maxConcurrent {s s' : QueueManager} {l : Label} (hst : Step s l s') :
    s'.maxConcurrent = s.maxConcurrent := by
  cases hst with
  | add _ j hstats herr hstart hfin hfresh h =>
    unfold QueueManager.add_job at h
    split at h
    · cases h; rfl
    · cases h
  | cancel _ now id h =>
    unfold QueueManager.cancel_job at h
    split at h
    · cases h; rfl
    · cases hext : extractFirst (fun j => j.id = id) s.queue with
      | none => rw [hext] at h; cases h
      | some pr => obtain ⟨job, rest⟩ := pr; rw [hext] at h; cases h; rfl
  | retry _ id h =>
    unfold QueueManager.retry_job at h
    cases hext : extractFirst (fun j => j.id = id && j.status = JobStatus.Failed) s.history with
    | none => rw [hext] at h; cases h
    | some pr => obtain ⟨job, rest⟩ := pr; rw [hext] at h; cases h; rfl
  | dispatch now j rest hcap hq2 => rfl
  | finish now id result h =>
    unfold QueueManager.finish_job
    cases hext : extractFirst (fun j => j.id = id) s.active with
    | none => rfl
    | some pr => obtain ⟨job, rest⟩ := pr; rfl
  | progress id st => rfl
  | removeHistory _ id h =>
    unfold QueueManager.remove_from_history at h
    cases hext : extractFirst (fun j => j.id = id) s.history with
    | none => rw [hext] at h; cases h
    | some pr => obtain ⟨job, rest⟩ := pr; rw [hext] at h; cases h; rfl
  | clearHistory => rfl
  | stopAccepting => rfl

/-- The store invariant holds along every trace. -/
theorem trace_storeInv {s0 : QueueManager} {ls : List Label} {s : QueueManager}
    (htr : Trace s0 ls s) (h0 : StoreInv s0) : StoreInv s := by
  induction htr with
  | nil => exact h0
  | snoc ls s1 s2 l htr hst ih => exact storeInv_step ih hst

/-- The concurrency limit is constant along every trace. -/
theorem trace_maxConcurrent {s0 : QueueManager} {ls : List Label} {s : QueueManager}
    (htr : Trace s0 ls s) : s.maxConcurrent = s0.maxConcurrent := by
  induction htr with
  | nil => rfl
  | snoc ls s1 s2 l htr hst ih => rw [step_maxConcurrent hst, ih]

/-! ## Presence of an admitted id along a trace -/

theorem trace_snoc_inv {s0 : QueueManager} {lsl : List Label} {s2 : QueueManager}
    (h : Trace s0 lsl s2) :
    ∀ {ls : List Label} {l : Label}, lsl = ls ++ [l] →
      ∃ s1, Trace s0 ls s1 ∧ Step s1 l s2 := by
  cases h with
  | nil =>
    intro ls l heq
    exact absurd heq (by simp)
  | snoc ls' s1 s2x l' htr hst =>
    intro ls l heq
    obtain ⟨h1, h2⟩ := List.append_inj' heq rfl
    subst h1
    cases h2
    exact ⟨s1, htr, hst⟩

theorem trace_append {s0 : QueueManager} (la lb : List Label) :
    ∀ {s2 : QueueManager}, Trace s0 (la ++ lb) s2 →
      ∃ s1, Trace s0 la s1 ∧ Trace s1 lb s2 := by
  induction lb using List.reverseRecOn with
  | nil =>
    intro s2 h
    rw [List.append_nil] at h
    exact ⟨s2, h, Trace.nil s2⟩
  | append_singleton lb' l ih =>
    intro s2 h
    rw [← List.append_assoc] at h
    obtain ⟨smid, htr1, hstep⟩ := trace_snoc_inv h rfl
    obtain ⟨s1, ha2, hb⟩ := ih htr1
    exact ⟨s1, ha2, Trace.snoc _ _ _ _ _ hb hstep⟩

theorem step_presence {s s' : QueueManager} {l : Label} {id : Nat}
    (hst : Step s l s') (hcnt : s.countId id = 1) (hrem : removesId id l = false) :
    s'.countId id = 1 := by
  cases hst with
  | add _ j hstats herr hstart hfin hfresh h =>
    have h0 : s.allIds.count j.id = 0 := List.count_eq_zero.mpr hfresh
    have hne : j.id ≠ id := by
      intro hcontra
      unfold QueueManager.countId at hcnt
      rw [hcontra] at h0
      omega
    rw [countId_add h id, if_neg hne, hcnt]
  | cancel _ now cid h => rw [countId_cancel h, hcnt]
  | retry _ cid h => rw [countId_retry h, hcnt]
  | dispatch now j rest hcap hq2 => rw [countId_dispatch s now j rest hq2, hcnt]
  | finish now cid result h => rw [countId_finish s now cid result, hcnt]
  | progress cid st => rw [countId_progress s cid st, hcnt]
  | removeHistory _ rid h =>
    simp only [removesId, decide_eq_false_iff_not] at hrem
    rw [countId_removeHistory h id (fun hc => hrem (hc ▸ rfl)), hcnt]
  | clearHistory => simp [removesId] at hrem
  | stopAccepting => exact hcnt

theorem step_add_count {s s' : QueueManager} {id : Nat}
    (hst : Step s (Label.add id) s') : s'.countId id = 1 := by
  cases hst with
  | add _ j hstats herr hstart hfin hfresh h =>
    have h0 : s.allIds.count j.id = 0 := List.count_eq_zero.mpr hfresh
    rw [countId_add h j.id, if_pos rfl]
    unfold QueueManager.countId
    omega

theorem trace_keep {s1 : QueueManager} {ls2 : List Label} {s2 : QueueManager} {id : Nat}
    (htr : Trace s1 ls2 s2) :
    s1.countId id = 1 → (∀ l ∈ ls2, removesId id l = false) → s2.countId id = 1 := by
  induction htr with
  | nil => intro hcnt _; exact hcnt
  | snoc ls s1x s2x l htrx hstx ih =>
    intro hcnt hno
    have hc := ih hcnt (fun l' hl' => hno l' (List.mem_append.mpr (Or.inl hl')))
    exact step_presence hstx hc (hno l (List.mem_append.mpr (Or.inr (by simp))))

theorem trace_presence {s0 : QueueManager} {ls : List Label} {s : QueueManager} {id : Nat}
    (htr : Trace s0 ls s) (hadm : admittedNotRemoved id ls) : s.countId id = 1 := by
  obtain ⟨l1, l2, heq, hnorem⟩ := hadm
  subst heq
  have h2 : Trace s0 ((l1 ++ [Label.add id]) ++ l2) s := by
    rw [List.append_assoc]
    exact htr
  obtain ⟨smid, htrA, htrB⟩ := trace_append (l1 ++ [Label.add id]) l2 h2
  obtain ⟨sa, htr1, hstep⟩ := trace_snoc_inv htrA rfl
  exact trace_keep htrB (step_add_count hstep) hnorem

/-- The one-step run reaching `stateAfterAdd`. -/
theorem stateAfterAdd_reachable : Trace (QueueManager.new 2) [Label.add 0] stateAfterAdd := by
  have hstep : Step (QueueManager.new 2) (Label.add 0) stateAfterAdd :=
    Step.add _ _ (mkJob 0) rfl rfl rfl rfl
      (by simp [QueueManager.new, QueueManager.allIds, jobIds]) rfl
  exact Trace.snoc _ [] _ _ _ (Trace.nil _) hstep

/-- C1: for every job id admitted by AddJob and not later removed by
RemoveFromHistory or ClearHistory, every reachable state of the job store holds
the id in exactly one of queue, active set and history: the three occurrence
counts sum to exactly one. -/
theorem C1_exactly_one_partition (max : Nat) (ls : List Label) (s : QueueManager)
    (id : Nat) (htr : Trace (QueueManager.new max) ls s)
    (hadm : admittedNotRemoved id ls) :
    (jobIds s.queue).count id + (jobIds s.active).count id
      + (jobIds s.history).count id = 1 := by
  have h := trace_presence htr hadm
  unfold QueueManager.countId QueueManager.allIds at h
  simp only [List.count_append] at h
  omega

/-- Witness for C1 at the concrete one-step run adding job 0. -/
theorem C1_exactly_one_partition_witness :
    (jobIds stateAfterAdd.queue).count 0 + (jobIds stateAfterAdd.active).count 0
      + (jobIds stateAfterAdd.history).count 0 = 1 :=
  C1_exactly_one_partition 2 [Label.add 0] stateAfterAdd 0 stateAfterAdd_reachable
    ⟨[], [], rfl, by simp⟩

/-- C2: in every reachable state of the scheduler the active set holds at most
`max_concurrent` jobs; dispatch happens only inside the single admission loop,
which checks the active count before popping each queue head. -/
theorem C2_active_at_most_max (max : Nat) (ls : List Label) (s : QueueManager)
    (htr : Trace (QueueManager.new max) ls s) :
    s.active.length ≤ max := by
  have hinv := trace_storeInv htr (storeInv_new max)
  have hmax := trace_maxConcurrent htr
  have h := hinv.2.2.1
  rw [hmax] at h
  exact h

/-- Witness for C2 at the concrete one-step run adding job 0 (limit 2). -/
theorem C2_active_at_most_max_witness : stateAfterAdd.active.length ≤ 2 :=
  C2_active_at_most_max 2 [Label.add 0] stateAfterAdd stateAfterAdd_reachable

/-- The three-step run reaching `c3S3` (add, dispatch, complete). -/
theorem c3S3_reachable : Reachable 1 c3S3 := by
  refine ⟨[Label.add 0, Label.dispatch 0, Label.finish 0], ?_⟩
  have h1 : Step (QueueManager.new 1) (Label.add 0) c3S1 :=
    Step.add _ _ (mkJob 0) rfl rfl rfl rfl
      (by simp [QueueManager.new, QueueManager.allIds, jobIds]) rfl
  have h2 : Step c3S1 (Label.dispatch 0) c3S2 :=
    Step.dispatch c3S1 10 { mkJob 0 with status := JobStatus.Queued } []
      (by simp [c3S1, QueueManager.new]) rfl
  have h3 : Step c3S2 (Label.finish 0) c3S3 :=
    Step.finish c3S2 20 0 none
      (by simp [c3S2, c3S1, QueueManager.start_job, EncodingJob.mark_started, jobIds, mkJob])
  exact Trace.snoc _ _ _ _ _ (Trace.snoc _ _ _ _ _
    (Trace.snoc _ _ _ _ _ (Trace.nil _) h1) h2) h3

/-- C3 as stated is refuted: `mark_completed` does not clear `stats`, so after
a job runs to completion its history entry has status Completed yet still
carries the stats set at dispatch — contradicting "stats non-null iff status =
Running" and "every Completed history entry has stats = null". -/
theorem C3_counterexample :
    Reachable 1 c3S3
    ∧ ∃ j ∈ c3S3.history, j.status = JobStatus.Completed ∧ j.stats ≠ none := by
  refine ⟨c3S3_reachable, ?_⟩
  refine ⟨(({ mkJob 0 with status := JobStatus.Queued }).mark_started 10).mark_completed 20,
    ?_, ?_, ?_⟩
  · simp [c3S3, c3S2, c3S1, QueueManager.finish_job, extractFirst,
      QueueManager.start_job, EncodingJob.mark_started, EncodingJob.mark_completed,
      QueueManager.new, mkJob]
  · simp [EncodingJob.mark_completed]
  · simp [EncodingJob.mark_completed, EncodingJob.mark_started]

/-- C3 (amended): in every reachable state, a Running job always has non-null
stats (but terminal jobs may retain the stats they had while running), and the
error message is non-null exactly on status Failed. -/
theorem C3_stats_error_invariants (max : Nat) (ls : List Label) (s : QueueManager)
    (htr : Trace (QueueManager.new max) ls s) (j : EncodingJob)
    (hj : j ∈ s.queue ∨ j ∈ s.active ∨ j ∈ s.history) :
    (j.status = JobStatus.Running → j.stats ≠ none)
    ∧ (j.error_message ≠ none ↔ j.status = JobStatus.Failed) := by
  have hinv := trace_storeInv htr (storeInv_new max)
  obtain ⟨-, -, -, hq, ha, hh⟩ := hinv
  rcases hj with hj | hj | hj
  · obtain ⟨hst, herr⟩ := hq j hj
    refine ⟨fun hr => ?_, ?_⟩
    · rw [hst] at hr
      cases hr
    · rw [herr, hst]
      simp
  · obtain ⟨hst, hstats, herr⟩ := ha j hj
    refine ⟨fun _ => hstats, ?_⟩
    rw [herr, hst]
    simp
  · exact ⟨fun hr => absurd hr (hh j hj).2.2, (hh j hj).1⟩

/-- Witness for the amended C3 at the queued job of the concrete one-step run. -/
theorem C3_stats_error_invariants_witness :
    (({ mkJob 0 with status := JobStatus.Queued } : EncodingJob).status = JobStatus.Running →
      ({ mkJob 0 with status := JobStatus.Queued } : EncodingJob).stats ≠ none)
    ∧ (({ mkJob 0 with status := JobStatus.Queued } : EncodingJob).error_message ≠ none
        ↔ ({ mkJob 0 with status := JobStatus.Queued } : EncodingJob).status = JobStatus.Failed) :=
  C3_stats_error_invariants 2 [Label.add 0] stateAfterAdd stateAfterAdd_reachable
    { mkJob 0 with status := JobStatus.Queued } (Or.inl (by simp [stateAfterAdd]))

/-- C4 as stated is refuted: `load_state` demotes a loaded active job to Queued
and clears its stats, but does not clear started_at (or finished_at) — the
demoted entry still carries started_at = some 5, where the claim requires the
timestamps cleared. -/
theorem C4_counterexample :
    Persistence.load (Persistence.save c4State) = Except.ok c4State
    ∧ ∃ j ∈ ((QueueManager.new 2).load_state c4State).queue,
        j.status = JobStatus.Queued ∧ j.stats = none ∧ j.started_at = some 5 := by
  refine ⟨rfl, { c4Job with status := JobStatus.Queued, stats := none }, ?_, by simp,
    by simp, by simp [c4Job, mkJob]⟩
  simp [QueueManager.load_state, c4State, QueueManager.new]

/-- C4 (amended): Save followed by Load returns the snapshot unchanged, and
reloading it into a fresh Job Store reproduces it except that every entry of
the active partition is demoted to Queued with stats cleared (timestamps
retained) and appended to the back of the queue; the active set is empty after
reload. -/
theorem C4_save_load_roundtrip (max : Nat) (st : PersistedState) :
    Persistence.load (Persistence.save st) = Except.ok st
    ∧ ((QueueManager.new max).load_state st).queue
        = st.queue ++ st.active.map (fun j =>
            { j with status := JobStatus.Queued, stats := none })
    ∧ ((QueueManager.new max).load_state st).history = st.history
    ∧ ((QueueManager.new max).load_state st).active = [] :=
  ⟨rfl, rfl, rfl, rfl⟩

/-- C9: load of a missing state file yields the empty default snapshot as a
success, and load of a present file whose content fails to deserialize yields
an error, not a default. -/
theorem C9_load_missing_and_malformed :
    Persistence.load StateFile.missing = Except.ok PersistedState.default
    ∧ PersistedState.default.queue = [] ∧ PersistedState.default.active = []
    ∧ PersistedState.default.history = []
    ∧ Persistence.load (StateFile.content none)
        = Except.error "Echec du parsing de l etat" :=
  ⟨rfl, rfl, rfl, rfl, rfl⟩

/-- C5: CancelJob on an active job (with its control registered, as every
active job has) succeeds with the store unchanged; CancelJob on a queued job
removes it from the queue and appends it to history marked Cancelled, with a
finish time and with started_at untouched (so still null for a job that never
ran); CancelJob of an id in neither location fails. -/
theorem C5_cancel_job (now : Nat) (s : QueueManager) (id : Nat)
    (hctrl : s.activeControls = jobIds s.active) :
    (id ∈ jobIds s.active → s.cancel_job now id = Except.ok s)
    ∧ (id ∉ jobIds s.active →
        ∀ j rest, extractFirst (fun x => x.id = id) s.queue = some (j, rest) →
          s.cancel_job now id = Except.ok { s with
              queue := rest
              history := s.history ++ [j.mark_cancelled now] }
          ∧ (j.mark_cancelled now).status = JobStatus.Cancelled
          ∧ (j.mark_cancelled now).finished_at = some now
          ∧ (j.mark_cancelled now).started_at = j.started_at)
    ∧ (id ∉ jobIds s.active → (∀ j ∈ s.queue, j.id ≠ id) →
        s.cancel_job now id = Except.error "Job non trouve") := by
  refine ⟨?_, ?_, ?_⟩
  · intro hmem
    obtain ⟨x, hx, hxid⟩ := List.mem_map.mp hmem
    have hcond : (s.active.any (fun j => j.id = id)) ∧ id ∈ s.activeControls := by
      constructor
      · simp only [List.any_eq_true]
        exact ⟨x, hx, by simp [hxid]⟩
      · rw [hctrl]
        exact hmem
    unfold QueueManager.cancel_job
    rw [if_pos hcond]
  · intro hnmem j rest hext
    have hcond : ¬((s.active.any (fun x => x.id = id)) ∧ id ∈ s.activeControls) := by
      intro hc
      rw [hctrl] at hc
      exact hnmem hc.2
    unfold QueueManager.cancel_job
    rw [if_neg hcond, hext]
    exact ⟨rfl, by simp [EncodingJob.mark_cancelled], by simp [EncodingJob.mark_cancelled],
      by simp [EncodingJob.mark_cancelled]⟩
  · intro hnmem hqueue
    have hcond : ¬((s.active.any (fun x => x.id = id)) ∧ id ∈ s.activeControls) := by
      intro hc
      rw [hctrl] at hc
      exact hnmem hc.2
    unfold QueueManager.cancel_job
    rw [if_neg hcond]
    cases hext : extractFirst (fun x => x.id = id) s.queue with
    | none => rfl
    | some pr =>
      obtain ⟨j, rest⟩ := pr
      obtain ⟨l1, l2, he1, _, _, hpj⟩ := extractFirst_split hext
      have hjq : j ∈ s.queue := by
        rw [he1]
        exact List.mem_append.mpr (Or.inr (List.mem_cons_self _ _))
      have hne := hqueue j hjq
      simp at hpj
      exact absurd hpj hne

/-- Witness for C5: cancelling the queued job 2 of the concrete store moves it
to history marked Cancelled. -/
theorem C5_cancel_job_witness :
    c5Store.cancel_job 9 2 = Except.ok { c5Store with
      queue := []
      history := [({ mkJob 2 with status := JobStatus.Queued }).mark_cancelled 9] } := by
  have h := (C5_cancel_job 9 c5Store 2
      (by simp [c5Store, jobIds, EncodingJob.mark_started, mkJob])).2.1
    (by simp [c5Store, jobIds, EncodingJob.mark_started, mkJob])
    ({ mkJob 2 with status := JobStatus.Queued }) []
    (by simp [c5Store, extractFirst, mkJob])
  simpa using h.1

/-- C6: RetryJob succeeds exactly when history holds an entry with this id and
status Failed; on success the first such entry has error/stats/timestamps
cleared, status reset to Queued, and is appended at the tail of the queue;
otherwise the call fails with the not-found-or-not-failed error and the state
is unchanged. -/
theorem C6_retry_job (s : QueueManager) (id : Nat) :
    ((∃ j ∈ s.history, j.id = id ∧ j.status = JobStatus.Failed)
        ↔ ∃ s', s.retry_job id = Except.ok s')
    ∧ (∀ j rest,
        extractFirst (fun x => x.id = id && x.status = JobStatus.Failed) s.history
          = some (j, rest) →
        s.retry_job id = Except.ok { s with
          history := rest
          queue := s.queue ++ [{ j with
            status := JobStatus.Queued
            error_message := none
            stats := none
            started_at := none
            finished_at := none }] })
    ∧ ((∀ j ∈ s.history, ¬(j.id = id ∧ j.status = JobStatus.Failed)) →
        s.retry_job id = Except.error "Job non trouve ou non failed") := by
  refine ⟨⟨?_, ?_⟩, ?_, ?_⟩
  · intro hex
    obtain ⟨j, hj, hjid, hjst⟩ := hex
    have hsome : (extractFirst (fun x => x.id = id && x.status = JobStatus.Failed)
        s.history).isSome := by
      rw [extractFirst_isSome_iff]
      exact ⟨j, hj, by simp [hjid, hjst]⟩
    unfold QueueManager.retry_job
    cases hext : extractFirst (fun x => x.id = id && x.status = JobStatus.Failed)
        s.history with
    | none => rw [hext] at hsome; simp at hsome
    | some pr =>
      obtain ⟨jf, rest⟩ := pr
      exact ⟨_, rfl⟩
  · intro hok
    obtain ⟨s', hs'⟩ := hok
    unfold QueueManager.retry_job at hs'
    cases hext : extractFirst (fun x => x.id = id && x.status = JobStatus.Failed)
        s.history with
    | none => rw [hext] at hs'; cases hs'
    | some pr =>
      obtain ⟨jf, rest⟩ := pr
      obtain ⟨l1, l2, he1, _, _, hpj⟩ := extractFirst_split hext
      simp at hpj
      refine ⟨jf, ?_, hpj.1, hpj.2⟩
      rw [he1]
      exact List.mem_append.mpr (Or.inr (List.mem_cons_self _ _))
  · intro j rest hext
    unfold QueueManager.retry_job
    rw [hext]
  · intro hnone
    unfold QueueManager.retry_job
    cases hext : extractFirst (fun x => x.id = id && x.status = JobStatus.Failed)
        s.history with
    | none => rfl
    | some pr =>
      obtain ⟨jf, rest⟩ := pr
      obtain ⟨l1, l2, he1, _, _, hpj⟩ := extractFirst_split hext
      simp at hpj
      have hjmem : jf ∈ s.history := by
        rw [he1]
        exact List.mem_append.mpr (Or.inr (List.mem_cons_self _ _))
      exact absurd ⟨hpj.1, hpj.2⟩ (hnone jf hjmem)

/-- Witness for C6: retrying the Failed job 4 of the concrete store clears its
error/stats/timestamps and appends it to the queue. -/
theorem C6_retry_job_witness :
    c6Store.retry_job 4 = Except.ok { c6Store with
      history := []
      queue := [{ (mkJob 4).mark_failed 8 "boom" with
        status := JobStatus.Queued
        error_message := none
        stats := none
        started_at := none
        finished_at := none }] } := by
  have h := (C6_retry_job c6Store 4).2.1 ((mkJob 4).mark_failed 8 "boom") []
    (by simp [c6Store, extractFirst, EncodingJob.mark_failed, mkJob])
  simpa using h

/-- C7 as stated is refuted: with total_frames = 2000 and fps already known to
be 25, feeding ParseLine a `frame=1000` record updates the frame but yields
progress_percent 0 (not 50) and no ETA, because the key=value branch of
parse_line recomputes progress and ETA only on a progress= record. -/
theorem C7_counterexample :
    ((((StatsParser.new (some 2000) none).parse_line "fps=25").parse_line
        "frame=1000").stats.frame = 1000)
    ∧ ((((StatsParser.new (some 2000) none).parse_line "fps=25").parse_line
        "frame=1000").stats.fps = 25)
    ∧ ((((StatsParser.new (some 2000) none).parse_line "fps=25").parse_line
        "frame=1000").stats.progress_percent = 0)
    ∧ ¬((((StatsParser.new (some 2000) none).parse_line "fps=25").parse_line
        "frame=1000").stats.progress_percent = 50)
    ∧ ((((StatsParser.new (some 2000) none).parse_line "fps=25").parse_line
        "frame=1000").stats.eta = none) := by
  refine ⟨?_, ?_, ?_, ?_, ?_⟩ <;>
    simp [StatsParser.new, StatsParser.parse_line, EncodingStats.default, splitOnceList,
      parseU64chars, parseF64chars, natOfDigits]

/-- C7 (amended): same parser state, but progress and ETA appear on the
recomputation triggered by the following `progress=continue` record:
progress_percent = 100 × 1000/2000 = 50 and ETA = (2000 − 1000)/25 = 40 s. -/
theorem C7_progress_after_update :
    (((((StatsParser.new (some 2000) none).parse_line "fps=25").parse_line
        "frame=1000").parse_line "progress=continue").stats.progress_percent = 50)
    ∧ (((((StatsParser.new (some 2000) none).parse_line "fps=25").parse_line
        "frame=1000").parse_line "progress=continue").stats.eta = some 40) := by
  constructor <;>
    simp [StatsParser.new, StatsParser.parse_line, EncodingStats.default, splitOnceList,
      parseU64chars, parseF64chars, natOfDigits, EncodingStats.update,
      EncodingStats.calculate_progress, EncodingStats.calculate_eta] <;>
    norm_num

/-- C8: a rational frame-rate string N/D is evaluated as the exact quotient:
"24000/1001" parses to 24000/1001, which is within 0.001 of 23.976 and is not
the integer-truncated 24; a zero denominator yields no value. -/
theorem C8_frame_rate_rational :
    parse_frame_rate "24000/1001" = some (24000 / 1001 : ℚ)
    ∧ |(24000 / 1001 : ℚ) - 23976 / 1000| < 1 / 1000
    ∧ (24000 / 1001 : ℚ) ≠ 24
    ∧ parse_frame_rate "24000/0" = none := by
  refine ⟨?_, ?_, ?_, ?_⟩
  · simp [parse_frame_rate, splitOnceList, parseF64chars, parseU64chars, natOfDigits]
  · rw [abs_sub_lt_iff]
    constructor <;> norm_num
  · norm_num
  · simp [parse_frame_rate, splitOnceList, parseF64chars, parseU64chars, natOfDigits]

/-- C10: the derived-stats recomputation is total and never divides or
underflows: with total_frames = some 0 the progress is left unchanged (no
division), with unknown frames and a zero total duration likewise, and when
frame ≥ total_frames the ETA uses saturating subtraction and comes out as
some 0, never negative. -/
theorem C10_derived_stats_safe (s : EncodingStats) :
    (s.total_frames = some 0 → s.calculate_progress = s)
    ∧ (s.total_frames = none → s.total_duration = some 0 → s.calculate_progress = s)
    ∧ (∀ total, s.total_frames = some total → total ≤ s.frame → 0 < s.fps →
        s.calculate_eta.eta = some 0) := by
  refine ⟨?_, ?_, ?_⟩
  · intro h
    unfold EncodingStats.calculate_progress
    rw [h]
    simp
  · intro h1 h2
    unfold EncodingStats.calculate_progress
    rw [h1, h2]
    simp
  · intro total h1 h2 h3
    have hz : total - s.frame = 0 := Nat.sub_eq_zero_of_le h2
    unfold EncodingStats.calculate_eta
    rw [h1]
    simp [h3, hz]

/-- Witness for C10 on concrete stats values. -/
theorem C10_derived_stats_safe_witness :
    ({ EncodingStats.default with total_frames := some 0 } : EncodingStats).calculate_progress
      = { EncodingStats.default with total_frames := some 0 }
    ∧ ({ EncodingStats.default with
          total_frames := some 2
          frame := 5
          fps := 1 } : EncodingStats).calculate_eta.eta = some 0 := by
  constructor
  · exact (C10_derived_stats_safe _).1 rfl
  · exact (C10_derived_stats_safe _).2.2 2 rfl (by norm_num) (by norm_num)

/-- Witness for the amended C4 at the concrete snapshot. -/
theorem C4_save_load_roundtrip_witness :
    Persistence.load (Persistence.save c4State) = Except.ok c4State
    ∧ ((QueueManager.new 2).load_state c4State).queue
        = c4State.queue ++ c4State.active.map (fun j =>
            { j with status := JobStatus.Queued, stats := none })
    ∧ ((QueueManager.new 2).load_state c4State).history = c4State.history
    ∧ ((QueueManager.new 2).load_state c4State).active = [] :=
  C4_save_load_roundtrip 2 c4State
